import Mathlib

/-!
Capability names: normalisation and tweaking (`oci/caps/utils.go`).

A shallow embedding of package `caps`.

* Go strings are Lean strings, Go slices are Lean lists (a `nil` slice and an
  empty slice are both `[]`), and a Go result pair `(value, error)` is an
  `Except`: an error comes with no value.
* The package-level variable `capabilityList` is an explicit argument of the
  functions that read it; `init` computes the value it holds after start-up.
* What the package imports is an argument as well: `strings.ToUpper`, and the
  collaborator `gocapability/capability` (`capability.List()`, `Cap.String()`,
  `capability.CAP_LAST_CAP`).  Theorems hold for every choice of them.  The claims that
  compare two upper-casings rest on two facts about `strings.ToUpper`, stated as
  hypotheses where they are used: it is idempotent, and it leaves a leading `CAP_` in
  place.  The literal token `ALL` is also taken to upper-case to itself where a claim
  names it.  `asciiUpper` below satisfies all of these and serves in the examples.
-/

namespace caps

/-! ## Data model -/

/-- Type `capability.Cap` of the collaborator, declared there as `type Cap int`. -/
abbrev Cap := Int

/-- Constant `capability.CAP_BLOCK_SUSPEND` of the collaborator (36 in `linux/capability.h`). -/
def CAP_BLOCK_SUSPEND : Cap := 36

/-- CapabilityMapping maps a linux capability name to its value of type `capability.Cap`. -/
structure CapabilityMapping where
  Key : String
  Value : Cap
  deriving DecidableEq, Repr

/-- Capabilities contains all CapabilityMapping. -/
abbrev Capabilities := List CapabilityMapping

/-- Method `String` of `CapabilityMapping`: returns the key. -/
def CapabilityMapping.String (c : CapabilityMapping) := c.Key

/-- GetAllCapabilities returns all of the capabilities: the name of every entry of
`capabilityList`, position by position. -/
def GetAllCapabilities (capabilityList : Capabilities) : List String :=
  capabilityList.map CapabilityMapping.String

/-- Loop of `init` over `capability.List()`: a capability above `last` is skipped, every
other one is appended to `capabilityList` under the key `CAP_` + its upper-cased name. -/
def init.loop (ToUpper : String → String) (capString : Cap → String) (last : Cap) :
    List Cap → Capabilities → Capabilities
  | [], capabilityList => capabilityList
  | cap :: rest, capabilityList =>
    if cap > last then
      init.loop ToUpper capString last rest capabilityList
    else
      init.loop ToUpper capString last rest
        (capabilityList ++ [CapabilityMapping.mk ("CAP_" ++ ToUpper (capString cap)) cap])

/-- Function `init`: the value of `capabilityList` after start-up.  `capList` is
`capability.List()`, `capString` is `Cap.String()`, and `CAP_LAST_CAP` is the ceiling the
collaborator reports; a ceiling of 63 is replaced by `CAP_BLOCK_SUSPEND`. -/
def init (ToUpper : String → String) (capList : List Cap) (capString : Cap → String)
    (CAP_LAST_CAP : Cap) : Capabilities :=
  let last := if CAP_LAST_CAP = 63 then CAP_BLOCK_SUSPEND else CAP_LAST_CAP
  init.loop ToUpper capString last capList []

/-- inSlice tests whether a string is contained in a slice of strings or not. -/
def inSlice : List String → String → Bool
  | [], _ => false
  | ss :: slice, s => if s = ss then true else inSlice slice s

/-- The magic value accepted in add and drop lists. -/
def allCapabilities : String := "ALL"

/-- Function `strings.HasPrefix` of the Go library: `s` begins with `pre`. -/
def HasPrefix (s pre : String) : Bool := pre.data.isPrefixOf s.data

deriving instance DecidableEq for Except

/-- The errors of the package.  `InvalidParameter c` is
`errdefs.InvalidParameter(fmt.Errorf("unknown capability: %q", c))`: an invalid-parameter
error whose message quotes the name `c`. -/
inductive Error where
  | InvalidParameter (c : String)
  deriving DecidableEq, Repr

/-- Loop of `NormalizeLegacyCapabilities` over `caps`, with the slice `normalized` built
so far. -/
def NormalizeLegacyCapabilities.loop (ToUpper : String → String) (valids : List String) :
    List String → List String → Except Error (List String)
  | [], normalized => .ok normalized
  | c :: caps, normalized =>
    let c := ToUpper c
    if c = allCapabilities then
      NormalizeLegacyCapabilities.loop ToUpper valids caps (normalized ++ [c])
    else
      let c := if !HasPrefix c "CAP_" then "CAP_" ++ c else c
      if !inSlice valids c then
        .error (Error.InvalidParameter c)
      else
        NormalizeLegacyCapabilities.loop ToUpper valids caps (normalized ++ [c])

/-- NormalizeLegacyCapabilities normalizes, and validates CapAdd/CapDrop capabilities
by upper-casing them, and adding a CAP_ prefix (if not yet present).  It also accepts
the "ALL" magic-value. -/
def NormalizeLegacyCapabilities (ToUpper : String → String) (capabilityList : Capabilities)
    (caps : List String) : Except Error (List String) :=
  let valids := GetAllCapabilities capabilityList
  NormalizeLegacyCapabilities.loop ToUpper valids caps []

/-- The two loops of `TweakCapabilities` (over `GetAllCapabilities()` and over `basics`)
have the same body: a name that is not in `capDrop` is appended to `caps`. -/
def TweakCapabilities.loop (capDrop : List String) : List String → List String → List String
  | [], caps => caps
  | c :: rest, caps =>
    if !inSlice capDrop c then TweakCapabilities.loop capDrop rest (caps ++ [c])
    else TweakCapabilities.loop capDrop rest caps

/-- TweakCapabilities tweaks capabilities by adding, dropping, or overriding
capabilities in the basics capabilities list. -/
def TweakCapabilities (ToUpper : String → String) (capabilityList : Capabilities)
    (basics adds drops : List String) (privileged : Bool) : Except Error (List String) :=
  if privileged then
    .ok (GetAllCapabilities capabilityList)
  else if adds.length = 0 ∧ drops.length = 0 then
    .ok basics
  else
    match NormalizeLegacyCapabilities ToUpper capabilityList drops with
    | .error err => .error err
    | .ok capDrop =>
      match NormalizeLegacyCapabilities ToUpper capabilityList adds with
      | .error err => .error err
      | .ok capAdd =>
        if inSlice capAdd allCapabilities then
          .ok (TweakCapabilities.loop capDrop (GetAllCapabilities capabilityList) [])
        else if inSlice capDrop allCapabilities then
          .ok capAdd
        else
          .ok (TweakCapabilities.loop capDrop basics [] ++ capAdd)

/-! ## The contract in the words of the specification -/

/-- The normal form of a token: `ALL` when the upper-cased token is `ALL`, the upper-cased
token when that starts with `CAP_`, and `CAP_` + the upper-cased token otherwise. -/
def normalForm (ToUpper : String → String) (t : String) : String :=
  if ToUpper t = "ALL" then "ALL"
  else if HasPrefix (ToUpper t) "CAP_" then ToUpper t
  else "CAP_" ++ ToUpper t

/-- Go's `strings.TrimPrefix`, the `strip_prefix` of the specification: `s` without the
leading `pre` when it has one, `s` otherwise. -/
def stripPrefix (s pre : String) : String :=
  if HasPrefix s pre then String.mk (s.data.drop pre.data.length) else s

/-- The boundary of the specification: the highest capability value the catalog admits,
`CAP_BLOCK_SUSPEND` when the collaborator reports the ceiling 63 and the reported ceiling
otherwise. -/
def boundary (CAP_LAST_CAP : Cap) : Cap :=
  if CAP_LAST_CAP = 63 then CAP_BLOCK_SUSPEND else CAP_LAST_CAP

/-! ## A concrete environment, for the examples -/

/-- Upper-casing of the letters `a`–`z`, every other character unchanged: what
`strings.ToUpper` does on ASCII text. -/
def asciiUpper (s : String) : String := String.mk (s.data.map Char.toUpper)

/-- The names `Cap.String()` gives the capabilities 0 to 40 of `linux/capability.h`, and
`unknown` for every other value. -/
def sampleString : Cap → String
  | 0 => "chown"
  | 1 => "dac_override"
  | 2 => "dac_read_search"
  | 3 => "fowner"
  | 4 => "fsetid"
  | 5 => "kill"
  | 6 => "setgid"
  | 7 => "setuid"
  | 8 => "setpcap"
  | 9 => "linux_immutable"
  | 10 => "net_bind_service"
  | 11 => "net_broadcast"
  | 12 => "net_admin"
  | 13 => "net_raw"
  | 14 => "ipc_lock"
  | 15 => "ipc_owner"
  | 16 => "sys_module"
  | 17 => "sys_rawio"
  | 18 => "sys_chroot"
  | 19 => "sys_ptrace"
  | 20 => "sys_pacct"
  | 21 => "sys_admin"
  | 22 => "sys_boot"
  | 23 => "sys_nice"
  | 24 => "sys_resource"
  | 25 => "sys_time"
  | 26 => "sys_tty_config"
  | 27 => "mknod"
  | 28 => "lease"
  | 29 => "audit_write"
  | 30 => "audit_control"
  | 31 => "setfcap"
  | 32 => "mac_override"
  | 33 => "mac_admin"
  | 34 => "syslog"
  | 35 => "wake_alarm"
  | 36 => "block_suspend"
  | 37 => "audit_read"
  | 38 => "perfmon"
  | 39 => "bpf"
  | 40 => "checkpoint_restore"
  | _ => "unknown"

/-- An enumeration standing for `capability.List()`: the capabilities 0 to 40. -/
def sampleList : List Cap := (List.range 41).map Int.ofNat

/-- The catalog `init` builds from the sample enumeration on a kernel whose last
capability is 37 (`CAP_AUDIT_READ`): 38 names, from `CAP_CHOWN` to `CAP_AUDIT_READ`. -/
def sampleCatalog : Capabilities := init asciiUpper sampleList sampleString 37

/-! ## Membership and the two loops -/

theorem inSlice_iff (slice : List String) (s : String) : inSlice slice s = true ↔ s ∈ slice := by
  induction slice with
  | nil => simp [inSlice]
  | cons ss slice ih =>
    by_cases h : s = ss
    · simp [inSlice, h]
    · simp [inSlice, h, ih]

theorem inSlice_eq_false_iff (slice : List String) (s : String) :
    inSlice slice s = false ↔ s ∉ slice := by
  rw [← inSlice_iff]; cases inSlice slice s <;> simp

theorem tweak_loop_eq (capDrop : List String) (xs caps : List String) :
    TweakCapabilities.loop capDrop xs caps = caps ++ xs.filter (fun c => !inSlice capDrop c) := by
  induction xs generalizing caps with
  | nil => simp [TweakCapabilities.loop]
  | cons c rest ih =>
    cases h : inSlice capDrop c <;> simp [TweakCapabilities.loop, h, ih]

theorem hasPrefix_cap_ne_all (s : String) (h : HasPrefix s "CAP_" = true) : s ≠ "ALL" := by
  rintro rfl
  revert h
  decide

theorem cap_append_ne_all (s : String) : "CAP_" ++ s ≠ "ALL" := by
  intro h
  have h2 := congrArg String.data h
  simp at h2

theorem hasPrefix_cap_append (s : String) : HasPrefix ("CAP_" ++ s) "CAP_" = true := by
  simp [HasPrefix]

/-- A token whose upper-cased form is not `ALL` has a normal form that is not `ALL` either. -/
theorem normalForm_eq_all_iff (ToUpper : String → String) (t : String) :
    normalForm ToUpper t = "ALL" ↔ ToUpper t = "ALL" := by
  unfold normalForm
  by_cases h : ToUpper t = "ALL"
  · simp [h]
  · by_cases hp : HasPrefix (ToUpper t) "CAP_" = true
    · simp [h, hp]
    · simp [h, hp, cap_append_ne_all]

theorem normalForm_hasPrefix (ToUpper : String → String) (t : String)
    (h : ToUpper t ≠ "ALL") : HasPrefix (normalForm ToUpper t) "CAP_" = true := by
  unfold normalForm
  by_cases hp : HasPrefix (ToUpper t) "CAP_" = true
  · simp [h, hp]
  · simp [h, hp, hasPrefix_cap_append]

/-- One turn of the loop of `NormalizeLegacyCapabilities`, in terms of the normal form. -/
theorem normalize_loop_cons (ToUpper : String → String) (valids : List String)
    (c : String) (caps normalized : List String) :
    NormalizeLegacyCapabilities.loop ToUpper valids (c :: caps) normalized =
      if normalForm ToUpper c = "ALL" ∨ normalForm ToUpper c ∈ valids then
        NormalizeLegacyCapabilities.loop ToUpper valids caps (normalized ++ [normalForm ToUpper c])
      else .error (Error.InvalidParameter (normalForm ToUpper c)) := by
  by_cases h : ToUpper c = "ALL"
  · have hn : normalForm ToUpper c = "ALL" := (normalForm_eq_all_iff ToUpper c).2 h
    rw [if_pos (Or.inl hn), hn]
    simp [NormalizeLegacyCapabilities.loop, allCapabilities, h]
  · have hn : normalForm ToUpper c ≠ "ALL" := fun hn => h ((normalForm_eq_all_iff ToUpper c).1 hn)
    have hc : (if HasPrefix (ToUpper c) "CAP_" = false then "CAP_" ++ ToUpper c else ToUpper c)
        = normalForm ToUpper c := by
      unfold normalForm
      cases hp : HasPrefix (ToUpper c) "CAP_" <;> simp [h]
    by_cases hv : normalForm ToUpper c ∈ valids
    · have hs := (inSlice_iff valids (normalForm ToUpper c)).2 hv
      rw [if_pos (Or.inr hv)]
      simp [NormalizeLegacyCapabilities.loop, allCapabilities, h, hc, hs]
    · have hs := (inSlice_eq_false_iff valids (normalForm ToUpper c)).2 hv
      rw [if_neg (by simp [hn, hv])]
      simp [NormalizeLegacyCapabilities.loop, allCapabilities, h, hc, hs]

/-- The loop succeeds exactly when every remaining token is `ALL` or a catalog name, and
then appends the normal forms in order. -/
theorem normalize_loop_ok_iff (ToUpper : String → String) (valids : List String)
    (caps normalized y : List String) :
    NormalizeLegacyCapabilities.loop ToUpper valids caps normalized = .ok y ↔
      (∀ t ∈ caps, normalForm ToUpper t = "ALL" ∨ normalForm ToUpper t ∈ valids) ∧
        y = normalized ++ caps.map (normalForm ToUpper) := by
  induction caps generalizing normalized with
  | nil =>
    simp only [NormalizeLegacyCapabilities.loop, Except.ok.injEq, List.map_nil,
      List.append_nil, List.not_mem_nil, false_implies, implies_true, true_and]
    exact eq_comm
  | cons c caps ih =>
    rw [normalize_loop_cons]
    by_cases h : normalForm ToUpper c = "ALL" ∨ normalForm ToUpper c ∈ valids
    · rw [if_pos h, ih]
      simp [h]
    · rw [if_neg h]
      simp [h]

/-- The loop fails exactly at the first remaining token that is neither `ALL` nor a
catalog name, with the normal form of that token in the error. -/
theorem normalize_loop_error_iff (ToUpper : String → String) (valids : List String)
    (caps normalized : List String) (e : Error) :
    NormalizeLegacyCapabilities.loop ToUpper valids caps normalized = .error e ↔
      ∃ pre t post, caps = pre ++ t :: post ∧
        (∀ s ∈ pre, normalForm ToUpper s = "ALL" ∨ normalForm ToUpper s ∈ valids) ∧
        normalForm ToUpper t ≠ "ALL" ∧ normalForm ToUpper t ∉ valids ∧
        e = Error.InvalidParameter (normalForm ToUpper t) := by
  induction caps generalizing normalized with
  | nil => simp [NormalizeLegacyCapabilities.loop]
  | cons c caps ih =>
    rw [normalize_loop_cons]
    by_cases h : normalForm ToUpper c = "ALL" ∨ normalForm ToUpper c ∈ valids
    · rw [if_pos h, ih]
      constructor
      · rintro ⟨pre, t, post, rfl, hpre, h1, h2, rfl⟩
        refine ⟨c :: pre, t, post, rfl, ?_, h1, h2, rfl⟩
        intro s hs
        rcases List.mem_cons.1 hs with rfl | hs
        · exact h
        · exact hpre s hs
      · rintro ⟨pre, t, post, hx, hpre, h1, h2, rfl⟩
        cases pre with
        | nil =>
          simp only [List.nil_append, List.cons.injEq] at hx
          obtain ⟨rfl, rfl⟩ := hx
          rcases h with h | h
          · exact absurd h h1
          · exact absurd h h2
        | cons p pre =>
          simp only [List.cons_append, List.cons.injEq] at hx
          obtain ⟨rfl, rfl⟩ := hx
          exact ⟨pre, t, post, rfl, fun s hs => hpre s (List.mem_cons_of_mem _ hs), h1, h2, rfl⟩
    · rw [if_neg h]
      push_neg at h
      constructor
      · intro he
        simp only [Except.error.injEq] at he
        exact ⟨[], c, caps, rfl, by simp, h.1, h.2, he.symm⟩
      · rintro ⟨pre, t, post, hx, hpre, h1, h2, rfl⟩
        cases pre with
        | nil =>
          simp only [List.nil_append, List.cons.injEq] at hx
          obtain ⟨rfl, rfl⟩ := hx
          rfl
        | cons p pre =>
          simp only [List.cons_append, List.cons.injEq] at hx
          obtain ⟨rfl, rfl⟩ := hx
          have := hpre c (List.mem_cons_self _ _)
          rcases this with h' | h'
          · exact absurd h' h.1
          · exact absurd h' h.2

theorem normalize_ok_iff (ToUpper : String → String) (capabilityList : Capabilities)
    (x y : List String) :
    NormalizeLegacyCapabilities ToUpper capabilityList x = .ok y ↔
      (∀ t ∈ x, normalForm ToUpper t = "ALL" ∨
        normalForm ToUpper t ∈ GetAllCapabilities capabilityList) ∧
        y = x.map (normalForm ToUpper) := by
  unfold NormalizeLegacyCapabilities
  simpa using normalize_loop_ok_iff ToUpper (GetAllCapabilities capabilityList) x [] y

theorem normalize_error_iff (ToUpper : String → String) (capabilityList : Capabilities)
    (x : List String) (e : Error) :
    NormalizeLegacyCapabilities ToUpper capabilityList x = .error e ↔
      ∃ pre t post, x = pre ++ t :: post ∧
        (∀ s ∈ pre, normalForm ToUpper s = "ALL" ∨
          normalForm ToUpper s ∈ GetAllCapabilities capabilityList) ∧
        normalForm ToUpper t ≠ "ALL" ∧
        normalForm ToUpper t ∉ GetAllCapabilities capabilityList ∧
        e = Error.InvalidParameter (normalForm ToUpper t) := by
  unfold NormalizeLegacyCapabilities
  exact normalize_loop_error_iff ToUpper (GetAllCapabilities capabilityList) x [] e

/-! ## Facts about strings and upper-casing -/

theorem hasPrefix_eq_append (s pre : String) (h : HasPrefix s pre = true) :
    s = pre ++ String.mk (s.data.drop pre.data.length) := by
  unfold HasPrefix at h
  have h2 := List.prefix_iff_eq_append.1 (List.isPrefixOf_iff_prefix.1 h)
  apply String.ext
  simpa using h2.symm

theorem string_append_cancel (p a b : String) (h : p ++ a = p ++ b) : a = b := by
  apply String.ext
  have h2 := congrArg String.data h
  simpa using h2

theorem stripPrefix_append (pre s : String) : stripPrefix (pre ++ s) pre = s := by
  have hp : HasPrefix (pre ++ s) pre = true := by simp [HasPrefix]
  unfold stripPrefix
  rw [if_pos hp]
  apply String.ext
  simp

theorem char_toUpper_idem (c : Char) : Char.toUpper (Char.toUpper c) = Char.toUpper c := by
  by_cases h : c.toNat ≥ 97 ∧ c.toNat ≤ 122
  · obtain ⟨h1, h2⟩ := h
    have hc : c = Char.ofNat c.toNat := (Char.ofNat_toNat c).symm
    generalize c.toNat = n at *
    subst hc
    interval_cases n <;> decide
  · simp [Char.toUpper, h]

/-- ASCII upper-casing is idempotent. -/
theorem asciiUpper_idem (s : String) : asciiUpper (asciiUpper s) = asciiUpper s := by
  apply String.ext
  simp [asciiUpper, Function.comp_def, char_toUpper_idem]

/-- ASCII upper-casing leaves a leading `CAP_` in place. -/
theorem asciiUpper_cap (s : String) : asciiUpper ("CAP_" ++ s) = "CAP_" ++ asciiUpper s := by
  apply String.ext
  simp only [asciiUpper, String.data_append, List.map_append]
  rfl

/-- With an idempotent upper-casing that leaves `CAP_` in place, the name the specification
looks up, `CAP_` + upper(strip_prefix(upper(t), `CAP_`)), is the normal form of every
token that is not `ALL`. -/
theorem specName_eq_normalForm (ToUpper : String → String)
    (hidem : ∀ s, ToUpper (ToUpper s) = ToUpper s)
    (hcap : ∀ s, ToUpper ("CAP_" ++ s) = "CAP_" ++ ToUpper s)
    (t : String) (h : ToUpper t ≠ "ALL") :
    "CAP_" ++ ToUpper (stripPrefix (ToUpper t) "CAP_") = normalForm ToUpper t := by
  unfold normalForm
  rw [if_neg h]
  by_cases hp : HasPrefix (ToUpper t) "CAP_" = true
  · rw [if_pos hp]
    have hs := hasPrefix_eq_append _ _ hp
    generalize String.mk ((ToUpper t).data.drop "CAP_".data.length) = r at hs
    have h1 : "CAP_" ++ ToUpper r = "CAP_" ++ r := by
      rw [← hcap, ← hs, hidem]
    rw [hs, stripPrefix_append, string_append_cancel _ _ _ h1]
  · rw [if_neg hp]
    have : stripPrefix (ToUpper t) "CAP_" = ToUpper t := by
      unfold stripPrefix
      rw [if_neg hp]
    rw [this, hidem]

/-- With such an upper-casing the normal form of a normal form is itself. -/
theorem normalForm_idem (ToUpper : String → String)
    (hidem : ∀ s, ToUpper (ToUpper s) = ToUpper s)
    (hcap : ∀ s, ToUpper ("CAP_" ++ s) = "CAP_" ++ ToUpper s)
    (t : String) : normalForm ToUpper (normalForm ToUpper t) = normalForm ToUpper t := by
  by_cases h : ToUpper t = "ALL"
  · have hn : normalForm ToUpper t = "ALL" := (normalForm_eq_all_iff ToUpper t).2 h
    have hu : ToUpper "ALL" = "ALL" := by
      have := hidem t
      rwa [h] at this
    rw [hn]
    exact (normalForm_eq_all_iff ToUpper "ALL").2 hu
  · have hu : ToUpper (normalForm ToUpper t) = normalForm ToUpper t := by
      unfold normalForm
      rw [if_neg h]
      by_cases hp : HasPrefix (ToUpper t) "CAP_" = true
      · rw [if_pos hp, hidem]
      · rw [if_neg hp, hcap, hidem]
    have hp := normalForm_hasPrefix ToUpper t h
    have hne : normalForm ToUpper t ≠ "ALL" := hasPrefix_cap_ne_all _ hp
    generalize normalForm ToUpper t = n at hu hp hne
    unfold normalForm
    rw [hu, if_neg hne, if_pos hp]

/-! ## The branches of `TweakCapabilities` -/

theorem tweak_loop_filter (capDrop xs : List String) :
    TweakCapabilities.loop capDrop xs [] = xs.filter (fun c => decide (c ∉ capDrop)) := by
  rw [tweak_loop_eq, List.nil_append]
  apply List.filter_congr
  intro c _
  cases h : inSlice capDrop c
  · simpa using (inSlice_eq_false_iff capDrop c).1 h
  · simpa using (inSlice_iff capDrop c).1 h

theorem inSlice_decide (slice : List String) (s : String) : inSlice slice s = decide (s ∈ slice) := by
  cases h : inSlice slice s
  · simpa using (inSlice_eq_false_iff slice s).1 h
  · simpa using (inSlice_iff slice s).1 h

/-- Normalising the empty list gives the empty list. -/
theorem normalize_nil (ToUpper : String → String) (capabilityList : Capabilities) :
    NormalizeLegacyCapabilities ToUpper capabilityList [] = .ok [] := rfl

/-- What `TweakCapabilities` returns once both lists have normalised, for a container that
is not privileged. -/
theorem tweak_of_normalized (ToUpper : String → String) (capabilityList : Capabilities)
    (basics adds drops capAdd capDrop : List String)
    (hD : NormalizeLegacyCapabilities ToUpper capabilityList drops = .ok capDrop)
    (hA : NormalizeLegacyCapabilities ToUpper capabilityList adds = .ok capAdd) :
    TweakCapabilities ToUpper capabilityList basics adds drops false =
      if adds = [] ∧ drops = [] then .ok basics
      else if "ALL" ∈ capAdd then
        .ok ((GetAllCapabilities capabilityList).filter (fun c => decide (c ∉ capDrop)))
      else if "ALL" ∈ capDrop then .ok capAdd
      else .ok (basics.filter (fun c => decide (c ∉ capDrop)) ++ capAdd) := by
  unfold TweakCapabilities
  simp only [Bool.false_eq_true, if_false, List.length_eq_zero, hD, hA, tweak_loop_filter,
    inSlice_decide, allCapabilities, decide_eq_true_eq]

/-- An unprivileged `TweakCapabilities` with something to tweak fails with the error of
the drop list when that list does not normalise. -/
theorem tweak_of_drops_error (ToUpper : String → String) (capabilityList : Capabilities)
    (basics adds drops : List String) (e : Error)
    (hD : NormalizeLegacyCapabilities ToUpper capabilityList drops = .error e) :
    TweakCapabilities ToUpper capabilityList basics adds drops false = .error e := by
  have hne : drops ≠ [] := by
    rintro rfl
    rw [normalize_nil] at hD
    cases hD
  unfold TweakCapabilities
  simp [hD, hne]

/-- It fails with the error of the add list when the drop list normalises and the add list
does not. -/
theorem tweak_of_adds_error (ToUpper : String → String) (capabilityList : Capabilities)
    (basics adds drops capDrop : List String) (e : Error)
    (hD : NormalizeLegacyCapabilities ToUpper capabilityList drops = .ok capDrop)
    (hA : NormalizeLegacyCapabilities ToUpper capabilityList adds = .error e) :
    TweakCapabilities ToUpper capabilityList basics adds drops false = .error e := by
  have hne : adds ≠ [] := by
    rintro rfl
    rw [normalize_nil] at hA
    cases hA
  unfold TweakCapabilities
  simp [hD, hA, hne]

theorem normalize_ok_ne_nil (ToUpper : String → String) (capabilityList : Capabilities)
    (x y : List String) (h : NormalizeLegacyCapabilities ToUpper capabilityList x = .ok y)
    (hy : y ≠ []) : x ≠ [] := by
  rintro rfl
  rw [normalize_nil] at h
  cases h
  exact hy rfl

/-- When `TweakCapabilities` fails: the container is not privileged and the error is that
of the drop list, or the drop list normalises and the error is that of the add list. -/
theorem tweak_error_iff (ToUpper : String → String) (capabilityList : Capabilities)
    (basics adds drops : List String) (privileged : Bool) (e : Error) :
    TweakCapabilities ToUpper capabilityList basics adds drops privileged = .error e ↔
      privileged = false ∧
        (NormalizeLegacyCapabilities ToUpper capabilityList drops = .error e ∨
          (∃ D, NormalizeLegacyCapabilities ToUpper capabilityList drops = .ok D) ∧
            NormalizeLegacyCapabilities ToUpper capabilityList adds = .error e) := by
  cases privileged with
  | true => simp [TweakCapabilities]
  | false =>
    cases hD : NormalizeLegacyCapabilities ToUpper capabilityList drops with
    | error e1 =>
      rw [tweak_of_drops_error ToUpper capabilityList basics adds drops e1 hD]
      simp
    | ok D =>
      cases hA : NormalizeLegacyCapabilities ToUpper capabilityList adds with
      | error e2 =>
        rw [tweak_of_adds_error ToUpper capabilityList basics adds drops D e2 hD hA]
        simp
      | ok A =>
        rw [tweak_of_normalized ToUpper capabilityList basics adds drops A D hD hA]
        split_ifs <;> simp

/-! ## The catalog built by `init` -/

theorem init_loop_eq (ToUpper : String → String) (capString : Cap → String) (last : Cap)
    (capList : List Cap) (capabilityList : Capabilities) :
    init.loop ToUpper capString last capList capabilityList =
      capabilityList ++ (capList.filter (fun cap => decide (cap ≤ last))).map
        (fun cap => CapabilityMapping.mk ("CAP_" ++ ToUpper (capString cap)) cap) := by
  induction capList generalizing capabilityList with
  | nil => simp [init.loop]
  | cons cap rest ih =>
    by_cases h : cap > last
    · have h2 : ¬ cap ≤ last := not_le.2 h
      simp [init.loop, h, h2, ih]
    · have h2 : cap ≤ last := not_lt.1 h
      simp [init.loop, h, h2, ih]

/-- Every name of the catalog built by `init` is `CAP_` followed by an upper-cased name. -/
theorem init_names (ToUpper : String → String) (capList : List Cap) (capString : Cap → String)
    (CAP_LAST_CAP : Cap) (n : String)
    (h : n ∈ GetAllCapabilities (init ToUpper capList capString CAP_LAST_CAP)) :
    ∃ s, n = "CAP_" ++ ToUpper s := by
  unfold GetAllCapabilities init at h
  simp only [init_loop_eq, List.nil_append, List.map_map, List.mem_map, List.mem_filter,
    Function.comp_apply, CapabilityMapping.String] at h
  obtain ⟨cap, -, rfl⟩ := h
  exact ⟨capString cap, rfl⟩

/-- With an idempotent upper-casing that leaves `CAP_` in place, a name of the form
`CAP_` + upper(s) is its own normal form. -/
theorem normalForm_cap_upper (ToUpper : String → String)
    (hidem : ∀ s, ToUpper (ToUpper s) = ToUpper s)
    (hcap : ∀ s, ToUpper ("CAP_" ++ s) = "CAP_" ++ ToUpper s)
    (s : String) : normalForm ToUpper ("CAP_" ++ ToUpper s) = "CAP_" ++ ToUpper s := by
  unfold normalForm
  rw [hcap, hidem, if_neg (cap_append_ne_all _), if_pos (hasPrefix_cap_append _)]

/-! ## Claims about `NormalizeLegacyCapabilities` -/

/-- C1: when `NormalizeLegacyCapabilities` succeeds on `x`, its result has the length of
`x` and its i-th element is the normal form of the i-th token (so order and duplicates are
kept); tokens that upper-case to `ALL` are accepted whatever the catalog holds, also an
empty one; and the empty list gives the empty list with no error. -/
theorem C1_normalize_result (ToUpper : String → String) (capabilityList : Capabilities)
    (x y : List String)
    (h : NormalizeLegacyCapabilities ToUpper capabilityList x = .ok y) :
    y.length = x.length ∧
    (∀ (i : Nat) (hx : i < x.length) (hy : i < y.length),
      y.get ⟨i, hy⟩ = normalForm ToUpper (x.get ⟨i, hx⟩)) ∧
    y = x.map (normalForm ToUpper) ∧
    (∀ (z : List String) (catalog : Capabilities), (∀ t ∈ z, ToUpper t = "ALL") →
      NormalizeLegacyCapabilities ToUpper catalog z = .ok (z.map (fun _ => "ALL"))) ∧
    NormalizeLegacyCapabilities ToUpper capabilityList [] = .ok [] := by
  have hy := ((normalize_ok_iff ToUpper capabilityList x y).1 h).2
  refine ⟨by simp [hy], ?_, hy, ?_, rfl⟩
  · intro i hx hi
    subst hy
    simp
  · intro z catalog hz
    rw [normalize_ok_iff]
    refine ⟨fun t ht => Or.inl ((normalForm_eq_all_iff ToUpper t).2 (hz t ht)), ?_⟩
    apply List.map_congr_left
    intro t ht
    exact ((normalForm_eq_all_iff ToUpper t).2 (hz t ht)).symm

/-- Witness of C1 on a list with mixed case, a missing `CAP_`, `ALL` twice and a repeated
token. -/
theorem C1_normalize_result_witness :
    NormalizeLegacyCapabilities asciiUpper sampleCatalog
        ["chown", "cap_kill", "ALL", "all", "Net_Admin", "chown"] =
      .ok ["CAP_CHOWN", "CAP_KILL", "ALL", "ALL", "CAP_NET_ADMIN", "CAP_CHOWN"] ∧
    ["CAP_CHOWN", "CAP_KILL", "ALL", "ALL", "CAP_NET_ADMIN", "CAP_CHOWN"] =
      ["chown", "cap_kill", "ALL", "all", "Net_Admin", "chown"].map (normalForm asciiUpper) :=
  ⟨by decide,
   (C1_normalize_result asciiUpper sampleCatalog
      ["chown", "cap_kill", "ALL", "all", "Net_Admin", "chown"]
      ["CAP_CHOWN", "CAP_KILL", "ALL", "ALL", "CAP_NET_ADMIN", "CAP_CHOWN"] (by decide)).2.2.1⟩

/-- C2: `NormalizeLegacyCapabilities` fails exactly when some token has a normal form that
is neither `ALL` nor a name of `GetAllCapabilities()`; a failure comes with no result
list, and its error names the normal form of the first such token in input order. -/
theorem C2_normalize_fails_iff (ToUpper : String → String) (capabilityList : Capabilities)
    (x : List String) :
    ((∃ e, NormalizeLegacyCapabilities ToUpper capabilityList x = .error e) ↔
      ∃ t ∈ x, normalForm ToUpper t ≠ "ALL" ∧
        normalForm ToUpper t ∉ GetAllCapabilities capabilityList) ∧
    (∀ e, NormalizeLegacyCapabilities ToUpper capabilityList x = .error e →
      (∀ y, NormalizeLegacyCapabilities ToUpper capabilityList x ≠ .ok y) ∧
      ∃ pre t post, x = pre ++ t :: post ∧
        (∀ s ∈ pre, normalForm ToUpper s = "ALL" ∨
          normalForm ToUpper s ∈ GetAllCapabilities capabilityList) ∧
        normalForm ToUpper t ≠ "ALL" ∧
        normalForm ToUpper t ∉ GetAllCapabilities capabilityList ∧
        e = Error.InvalidParameter (normalForm ToUpper t)) := by
  constructor
  · constructor
    · rintro ⟨e, he⟩
      obtain ⟨pre, t, post, rfl, -, h1, h2, -⟩ := (normalize_error_iff _ _ _ _).1 he
      exact ⟨t, by simp, h1, h2⟩
    · rintro ⟨t, ht, h1, h2⟩
      cases hn : NormalizeLegacyCapabilities ToUpper capabilityList x with
      | error e => exact ⟨e, rfl⟩
      | ok y =>
        rcases ((normalize_ok_iff _ _ _ _).1 hn).1 t ht with h | h
        · exact absurd h h1
        · exact absurd h h2
  · intro e he
    refine ⟨?_, (normalize_error_iff _ _ _ _).1 he⟩
    intro y hy
    rw [he] at hy
    cases hy

/-- Witness of C2: the second token is the first unknown one, and the error carries its
normal form `CAP_KIL`, not the raw `cap_kil`. -/
theorem C2_normalize_fails_iff_witness :
    NormalizeLegacyCapabilities asciiUpper sampleCatalog ["chown", "cap_kil", "bogus"] =
      .error (Error.InvalidParameter "CAP_KIL") ∧
    ∃ pre t post, ["chown", "cap_kil", "bogus"] = pre ++ t :: post ∧
      (∀ s ∈ pre, normalForm asciiUpper s = "ALL" ∨
        normalForm asciiUpper s ∈ GetAllCapabilities sampleCatalog) ∧
      normalForm asciiUpper t ≠ "ALL" ∧
      normalForm asciiUpper t ∉ GetAllCapabilities sampleCatalog ∧
      Error.InvalidParameter "CAP_KIL" = Error.InvalidParameter (normalForm asciiUpper t) :=
  ⟨by decide,
   ((C2_normalize_fails_iff asciiUpper sampleCatalog ["chown", "cap_kil", "bogus"]).2
      (Error.InvalidParameter "CAP_KIL") (by decide)).2⟩

/-- C3, as the specification states it, fails at the token `ALL`: normalising `[ALL]`
succeeds, while `CAP_ALL` is not a name of the catalog. -/
theorem C3_counterexample_all :
    ¬ ((∃ y, NormalizeLegacyCapabilities asciiUpper sampleCatalog ["ALL"] = .ok y) ↔
      "CAP_" ++ asciiUpper (stripPrefix (asciiUpper "ALL") "CAP_") ∈
        GetAllCapabilities sampleCatalog) := by
  intro h
  have hm := h.1 ⟨["ALL"], by decide⟩
  revert hm
  decide

/-- C3, amended: for a token whose upper-cased form is not `ALL`, normalising the
one-token list succeeds exactly when `CAP_` + upper(strip_prefix(upper(t), `CAP_`)) is a
name of `GetAllCapabilities()`; a token whose upper-cased form is `ALL` always succeeds.
Upper-casing is taken idempotent and leaving a leading `CAP_` in place. -/
theorem C3_single_token_succeeds_iff (ToUpper : String → String)
    (hidem : ∀ s, ToUpper (ToUpper s) = ToUpper s)
    (hcap : ∀ s, ToUpper ("CAP_" ++ s) = "CAP_" ++ ToUpper s)
    (capabilityList : Capabilities) (t : String) :
    (ToUpper t ≠ "ALL" →
      ((∃ y, NormalizeLegacyCapabilities ToUpper capabilityList [t] = .ok y) ↔
        "CAP_" ++ ToUpper (stripPrefix (ToUpper t) "CAP_") ∈
          GetAllCapabilities capabilityList)) ∧
    (ToUpper t = "ALL" →
      NormalizeLegacyCapabilities ToUpper capabilityList [t] = .ok ["ALL"]) := by
  constructor
  · intro h
    rw [specName_eq_normalForm ToUpper hidem hcap t h]
    have hne : normalForm ToUpper t ≠ "ALL" := fun hn => h ((normalForm_eq_all_iff _ _).1 hn)
    constructor
    · rintro ⟨y, hy⟩
      rcases ((normalize_ok_iff _ _ _ _).1 hy).1 t (by simp) with h1 | h1
      · exact absurd h1 hne
      · exact h1
    · intro hm
      exact ⟨[normalForm ToUpper t], (normalize_ok_iff _ _ _ _).2 ⟨by simpa using Or.inr hm, rfl⟩⟩
  · intro h
    have hn : normalForm ToUpper t = "ALL" := (normalForm_eq_all_iff _ _).2 h
    exact (normalize_ok_iff _ _ _ _).2 ⟨by simp [hn], by simp [hn]⟩

/-- Witness of C3: `net_admin` is accepted because `CAP_NET_ADMIN` is in the catalog. -/
theorem C3_single_token_succeeds_iff_witness :
    asciiUpper "net_admin" ≠ "ALL" ∧
    "CAP_" ++ asciiUpper (stripPrefix (asciiUpper "net_admin") "CAP_") ∈
      GetAllCapabilities sampleCatalog ∧
    ∃ y, NormalizeLegacyCapabilities asciiUpper sampleCatalog ["net_admin"] = .ok y :=
  ⟨by decide, by decide,
   ((C3_single_token_succeeds_iff asciiUpper asciiUpper_idem asciiUpper_cap sampleCatalog
      "net_admin").1 (by decide)).2 (by decide)⟩

/-! ## Claims about `TweakCapabilities` -/

/-- C4: with `privileged` true, `TweakCapabilities` succeeds and returns exactly
`GetAllCapabilities()`, whatever the baseline, the adds and the drops hold; the two lists
are not validated. -/
theorem C4_privileged_returns_all (ToUpper : String → String) (capabilityList : Capabilities)
    (basics adds drops : List String) :
    TweakCapabilities ToUpper capabilityList basics adds drops true =
      .ok (GetAllCapabilities capabilityList) := by
  simp [TweakCapabilities]

/-- C5: with empty adds and drops and `privileged` false, `TweakCapabilities` succeeds and
returns the baseline unchanged, whatever names it holds. -/
theorem C5_nothing_to_tweak (ToUpper : String → String) (capabilityList : Capabilities)
    (basics : List String) :
    TweakCapabilities ToUpper capabilityList basics [] [] false = .ok basics := by
  simp [TweakCapabilities]

/-- C6: not privileged, adds and drops not both empty, drops normalising to `D` and adds
to `A`, no `ALL` in either: the result is the baseline without the members of `D`, in
baseline order, followed by `A` as it is, with no deduplication. -/
theorem C6_drop_then_add (ToUpper : String → String) (capabilityList : Capabilities)
    (basics adds drops A D : List String)
    (hne : ¬ (adds = [] ∧ drops = []))
    (hD : NormalizeLegacyCapabilities ToUpper capabilityList drops = .ok D)
    (hA : NormalizeLegacyCapabilities ToUpper capabilityList adds = .ok A)
    (hAall : "ALL" ∉ A) (hDall : "ALL" ∉ D) :
    TweakCapabilities ToUpper capabilityList basics adds drops false =
      .ok (basics.filter (fun c => decide (c ∉ D)) ++ A) := by
  rw [tweak_of_normalized ToUpper capabilityList basics adds drops A D hD hA,
    if_neg hne, if_neg hAall, if_neg hDall]

/-- Witness of C6, the scenario of the specification: baseline `CAP_CHOWN`, `CAP_SETUID`,
add `CAP_NET_ADMIN`, drop `CAP_SETUID`. -/
theorem C6_drop_then_add_witness :
    TweakCapabilities asciiUpper sampleCatalog ["CAP_CHOWN", "CAP_SETUID"] ["CAP_NET_ADMIN"]
      ["CAP_SETUID"] false = .ok ["CAP_CHOWN", "CAP_NET_ADMIN"] :=
  C6_drop_then_add asciiUpper sampleCatalog ["CAP_CHOWN", "CAP_SETUID"] ["CAP_NET_ADMIN"]
    ["CAP_SETUID"] ["CAP_NET_ADMIN"] ["CAP_SETUID"] (by decide) (by decide) (by decide)
    (by decide) (by decide)

/-- C7: not privileged, drops normalising to `D` and adds to `A`, `ALL` in `A`: the result
is the names of `GetAllCapabilities()` that are not in `D`, in catalog order, whatever the
baseline and the other adds. -/
theorem C7_add_all (ToUpper : String → String) (capabilityList : Capabilities)
    (basics adds drops A D : List String)
    (hD : NormalizeLegacyCapabilities ToUpper capabilityList drops = .ok D)
    (hA : NormalizeLegacyCapabilities ToUpper capabilityList adds = .ok A)
    (hAall : "ALL" ∈ A) :
    TweakCapabilities ToUpper capabilityList basics adds drops false =
      .ok ((GetAllCapabilities capabilityList).filter (fun c => decide (c ∉ D))) := by
  have hadds : adds ≠ [] :=
    normalize_ok_ne_nil ToUpper capabilityList adds A hA (List.ne_nil_of_mem hAall)
  rw [tweak_of_normalized ToUpper capabilityList basics adds drops A D hD hA,
    if_neg (fun h => hadds h.1), if_pos hAall]

/-- Witness of C7, the scenario of the specification: add `ALL`, drop `CAP_SYS_ADMIN`
gives every catalog name except `CAP_SYS_ADMIN`. -/
theorem C7_add_all_witness :
    TweakCapabilities asciiUpper sampleCatalog ["CAP_CHOWN"] ["ALL"] ["CAP_SYS_ADMIN"] false =
      .ok ((GetAllCapabilities sampleCatalog).filter (fun c => decide (c ∉ ["CAP_SYS_ADMIN"]))) ∧
    "CAP_SYS_ADMIN" ∈ GetAllCapabilities sampleCatalog :=
  ⟨C7_add_all asciiUpper sampleCatalog ["CAP_CHOWN"] ["ALL"] ["CAP_SYS_ADMIN"] ["ALL"]
    ["CAP_SYS_ADMIN"] (by decide) (by decide) (by decide), by decide⟩

/-- C8: not privileged, drops normalising to `D` and adds to `A`, no `ALL` in `A` and `ALL`
in `D`: the result is exactly `A`; the baseline and the other drops have no effect. -/
theorem C8_drop_all (ToUpper : String → String) (capabilityList : Capabilities)
    (basics adds drops A D : List String)
    (hD : NormalizeLegacyCapabilities ToUpper capabilityList drops = .ok D)
    (hA : NormalizeLegacyCapabilities ToUpper capabilityList adds = .ok A)
    (hAall : "ALL" ∉ A) (hDall : "ALL" ∈ D) :
    TweakCapabilities ToUpper capabilityList basics adds drops false = .ok A := by
  have hdrops : drops ≠ [] :=
    normalize_ok_ne_nil ToUpper capabilityList drops D hD (List.ne_nil_of_mem hDall)
  rw [tweak_of_normalized ToUpper capabilityList basics adds drops A D hD hA,
    if_neg (fun h => hdrops h.2), if_neg hAall, if_pos hDall]

/-- Witness of C8, the scenario of the specification: drop `ALL`, add `CAP_CHOWN` gives
`CAP_CHOWN` alone, the baseline being discarded. -/
theorem C8_drop_all_witness :
    TweakCapabilities asciiUpper sampleCatalog ["CAP_KILL", "CAP_SETUID"] ["CAP_CHOWN"]
      ["ALL"] false = .ok ["CAP_CHOWN"] :=
  C8_drop_all asciiUpper sampleCatalog ["CAP_KILL", "CAP_SETUID"] ["CAP_CHOWN"] ["ALL"]
    ["CAP_CHOWN"] ["ALL"] (by decide) (by decide) (by decide) (by decide)

/-- C9: `TweakCapabilities` fails exactly when `privileged` is false, adds and drops are
not both empty, and `NormalizeLegacyCapabilities` fails on drops or on adds; the error is
that of drops when drops does not normalise, whatever adds holds, and otherwise that of
adds; a failure comes with no result list; and the baseline has no part in it: another
baseline gives the same error. -/
theorem C9_tweak_fails_iff (ToUpper : String → String) (capabilityList : Capabilities)
    (basics adds drops : List String) (privileged : Bool) :
    ((∃ e, TweakCapabilities ToUpper capabilityList basics adds drops privileged = .error e) ↔
      privileged = false ∧ ¬ (adds = [] ∧ drops = []) ∧
        ((∃ e, NormalizeLegacyCapabilities ToUpper capabilityList drops = .error e) ∨
          (∃ e, NormalizeLegacyCapabilities ToUpper capabilityList adds = .error e))) ∧
    (∀ e, privileged = false →
      NormalizeLegacyCapabilities ToUpper capabilityList drops = .error e →
      TweakCapabilities ToUpper capabilityList basics adds drops privileged = .error e) ∧
    (∀ e D, privileged = false →
      NormalizeLegacyCapabilities ToUpper capabilityList drops = .ok D →
      NormalizeLegacyCapabilities ToUpper capabilityList adds = .error e →
      TweakCapabilities ToUpper capabilityList basics adds drops privileged = .error e) ∧
    (∀ e, TweakCapabilities ToUpper capabilityList basics adds drops privileged = .error e →
      ∀ y, TweakCapabilities ToUpper capabilityList basics adds drops privileged ≠ .ok y) ∧
    (∀ basics2 e,
      TweakCapabilities ToUpper capabilityList basics adds drops privileged = .error e ↔
      TweakCapabilities ToUpper capabilityList basics2 adds drops privileged = .error e) := by
  refine ⟨?_, ?_, ?_, ?_, ?_⟩
  · constructor
    · rintro ⟨e, he⟩
      obtain ⟨hp, h⟩ := (tweak_error_iff _ _ _ _ _ _ _).1 he
      refine ⟨hp, ?_, ?_⟩
      · rintro ⟨rfl, rfl⟩
        rcases h with h | ⟨-, h⟩ <;> · rw [normalize_nil] at h; cases h
      · rcases h with h | ⟨-, h⟩
        · exact Or.inl ⟨e, h⟩
        · exact Or.inr ⟨e, h⟩
    · rintro ⟨hp, -, h⟩
      cases hD : NormalizeLegacyCapabilities ToUpper capabilityList drops with
      | error e1 => exact ⟨e1, (tweak_error_iff _ _ _ _ _ _ _).2 ⟨hp, Or.inl hD⟩⟩
      | ok D =>
        rcases h with ⟨e, h⟩ | ⟨e, h⟩
        · rw [hD] at h; cases h
        · exact ⟨e, (tweak_error_iff _ _ _ _ _ _ _).2 ⟨hp, Or.inr ⟨⟨D, hD⟩, h⟩⟩⟩
  · intro e hp hD
    exact (tweak_error_iff _ _ _ _ _ _ _).2 ⟨hp, Or.inl hD⟩
  · intro e D hp hD hA
    exact (tweak_error_iff _ _ _ _ _ _ _).2 ⟨hp, Or.inr ⟨⟨D, hD⟩, hA⟩⟩
  · intro e he y hy
    rw [he] at hy
    cases hy
  · intro basics2 e
    rw [tweak_error_iff, tweak_error_iff]

/-- Witness of C9: both lists hold an unknown token and the error is that of the drop
list. -/
theorem C9_tweak_fails_iff_witness :
    NormalizeLegacyCapabilities asciiUpper sampleCatalog ["bogus"] =
      .error (Error.InvalidParameter "CAP_BOGUS") ∧
    NormalizeLegacyCapabilities asciiUpper sampleCatalog ["chown", "nope"] =
      .error (Error.InvalidParameter "CAP_NOPE") ∧
    TweakCapabilities asciiUpper sampleCatalog ["CAP_KILL"] ["chown", "nope"] ["bogus"] false =
      .error (Error.InvalidParameter "CAP_BOGUS") :=
  ⟨by decide, by decide,
   (C9_tweak_fails_iff asciiUpper sampleCatalog ["CAP_KILL"] ["chown", "nope"] ["bogus"]
      false).2.1 (Error.InvalidParameter "CAP_BOGUS") rfl (by decide)⟩

/-! ## Idempotence -/

/-- C10: when `NormalizeLegacyCapabilities` succeeds on `x` with result `y`, it succeeds
on `y` and returns `y`; and a list of names of the catalog built by `init` normalises to
itself.  Upper-casing is taken idempotent and leaving a leading `CAP_` in place. -/
theorem C10_normalize_idempotent (ToUpper : String → String)
    (hidem : ∀ s, ToUpper (ToUpper s) = ToUpper s)
    (hcap : ∀ s, ToUpper ("CAP_" ++ s) = "CAP_" ++ ToUpper s)
    (capabilityList : Capabilities) (x y : List String)
    (h : NormalizeLegacyCapabilities ToUpper capabilityList x = .ok y) :
    NormalizeLegacyCapabilities ToUpper capabilityList y = .ok y ∧
    (∀ (capList : List Cap) (capString : Cap → String) (CAP_LAST_CAP : Cap) (z : List String),
      (∀ n ∈ z, n ∈ GetAllCapabilities (init ToUpper capList capString CAP_LAST_CAP)) →
      NormalizeLegacyCapabilities ToUpper (init ToUpper capList capString CAP_LAST_CAP) z =
        .ok z) := by
  constructor
  · obtain ⟨hall, rfl⟩ := (normalize_ok_iff _ _ _ _).1 h
    rw [normalize_ok_iff]
    constructor
    · intro n hn
      obtain ⟨t, ht, rfl⟩ := List.mem_map.1 hn
      rw [normalForm_idem ToUpper hidem hcap]
      exact hall t ht
    · simp [normalForm_idem ToUpper hidem hcap]
  · intro capList capString CAP_LAST_CAP z hz
    have hfix : ∀ n ∈ z, normalForm ToUpper n = n := by
      intro n hn
      obtain ⟨s, rfl⟩ := init_names ToUpper capList capString CAP_LAST_CAP n (hz n hn)
      exact normalForm_cap_upper ToUpper hidem hcap s
    rw [normalize_ok_iff]
    constructor
    · intro n hn
      rw [hfix n hn]
      exact Or.inr (hz n hn)
    · conv_lhs => rw [← List.map_id z]
      exact List.map_congr_left (fun n hn => (hfix n hn).symm)

/-- Witness of C10: the normalised form of a mixed list normalises to itself. -/
theorem C10_normalize_idempotent_witness :
    NormalizeLegacyCapabilities asciiUpper sampleCatalog ["chown", "all", "cap_kill"] =
      .ok ["CAP_CHOWN", "ALL", "CAP_KILL"] ∧
    NormalizeLegacyCapabilities asciiUpper sampleCatalog ["CAP_CHOWN", "ALL", "CAP_KILL"] =
      .ok ["CAP_CHOWN", "ALL", "CAP_KILL"] :=
  ⟨by decide,
   (C10_normalize_idempotent asciiUpper asciiUpper_idem asciiUpper_cap sampleCatalog
      ["chown", "all", "cap_kill"] ["CAP_CHOWN", "ALL", "CAP_KILL"] (by decide)).1⟩

/-! ## Case and `CAP_` insensitivity -/

/-- Normalising a one-token list: the outcome is a function of the normal form alone. -/
theorem normalize_single (ToUpper : String → String) (capabilityList : Capabilities)
    (t : String) :
    NormalizeLegacyCapabilities ToUpper capabilityList [t] =
      if normalForm ToUpper t = "ALL" ∨
          normalForm ToUpper t ∈ GetAllCapabilities capabilityList then
        .ok [normalForm ToUpper t]
      else .error (Error.InvalidParameter (normalForm ToUpper t)) := by
  unfold NormalizeLegacyCapabilities
  rw [normalize_loop_cons]
  rfl

/-- With an idempotent upper-casing, a token and its upper-cased form have the same normal
form. -/
theorem normalForm_upper (ToUpper : String → String)
    (hidem : ∀ s, ToUpper (ToUpper s) = ToUpper s) (t : String) :
    normalForm ToUpper (ToUpper t) = normalForm ToUpper t := by
  unfold normalForm
  rw [hidem]

/-- With an upper-casing that leaves `CAP_` in place, a token whose upper-cased form is not
`ALL` and lacks the `CAP_` has the normal form of the token with `CAP_` put in front. -/
theorem normalForm_cap_append (ToUpper : String → String)
    (hcap : ∀ s, ToUpper ("CAP_" ++ s) = "CAP_" ++ ToUpper s) (t : String)
    (hall : ToUpper t ≠ "ALL") (hpre : HasPrefix (ToUpper t) "CAP_" = false) :
    normalForm ToUpper ("CAP_" ++ t) = normalForm ToUpper t := by
  unfold normalForm
  rw [hcap, if_neg (cap_append_ne_all _), if_pos (hasPrefix_cap_append _), if_neg hall, hpre]
  simp

/-- C11: `NormalizeLegacyCapabilities` is insensitive to letter case and to the presence of
`CAP_`: a one-token list and the list of its upper-cased token have the same outcome, and
when the upper-cased token is not `ALL` and does not start with `CAP_`, so have the token
and `CAP_` + the token.  Upper-casing is taken idempotent and leaving a leading `CAP_` in
place. -/
theorem C11_case_and_cap_insensitive (ToUpper : String → String)
    (hidem : ∀ s, ToUpper (ToUpper s) = ToUpper s)
    (hcap : ∀ s, ToUpper ("CAP_" ++ s) = "CAP_" ++ ToUpper s)
    (capabilityList : Capabilities) (t : String) :
    NormalizeLegacyCapabilities ToUpper capabilityList [ToUpper t] =
      NormalizeLegacyCapabilities ToUpper capabilityList [t] ∧
    (ToUpper t ≠ "ALL" → HasPrefix (ToUpper t) "CAP_" = false →
      NormalizeLegacyCapabilities ToUpper capabilityList ["CAP_" ++ t] =
        NormalizeLegacyCapabilities ToUpper capabilityList [t]) := by
  constructor
  · rw [normalize_single, normalize_single, normalForm_upper ToUpper hidem]
  · intro hall hpre
    rw [normalize_single, normalize_single, normalForm_cap_append ToUpper hcap t hall hpre]

/-- Witness of C11, the scenario of the specification: `net_admin`, `NET_ADMIN` and
`CAP_net_admin` all give `CAP_NET_ADMIN`. -/
theorem C11_case_and_cap_insensitive_witness :
    NormalizeLegacyCapabilities asciiUpper sampleCatalog ["net_admin"] = .ok ["CAP_NET_ADMIN"] ∧
    NormalizeLegacyCapabilities asciiUpper sampleCatalog ["CAP_NET_ADMIN"] =
      .ok ["CAP_NET_ADMIN"] ∧
    NormalizeLegacyCapabilities asciiUpper sampleCatalog [asciiUpper "net_admin"] =
      NormalizeLegacyCapabilities asciiUpper sampleCatalog ["net_admin"] ∧
    NormalizeLegacyCapabilities asciiUpper sampleCatalog ["CAP_" ++ "net_admin"] =
      NormalizeLegacyCapabilities asciiUpper sampleCatalog ["net_admin"] :=
  ⟨by decide, by decide,
   (C11_case_and_cap_insensitive asciiUpper asciiUpper_idem asciiUpper_cap sampleCatalog
      "net_admin").1,
   (C11_case_and_cap_insensitive asciiUpper asciiUpper_idem asciiUpper_cap sampleCatalog
      "net_admin").2 (by decide) (by decide)⟩

/-! ## Claims about the catalog -/

/-- The catalog of `init` as a filter and a map over the enumeration. -/
theorem init_eq (ToUpper : String → String) (capList : List Cap) (capString : Cap → String)
    (CAP_LAST_CAP : Cap) :
    init ToUpper capList capString CAP_LAST_CAP =
      (capList.filter (fun cap => decide (cap ≤ boundary CAP_LAST_CAP))).map
        (fun cap => CapabilityMapping.mk ("CAP_" ++ ToUpper (capString cap)) cap) := by
  unfold init boundary
  simp only [init_loop_eq, List.nil_append]

/-- The names of the catalog of `init`. -/
theorem getAll_init (ToUpper : String → String) (capList : List Cap) (capString : Cap → String)
    (CAP_LAST_CAP : Cap) :
    GetAllCapabilities (init ToUpper capList capString CAP_LAST_CAP) =
      (capList.filter (fun cap => decide (cap ≤ boundary CAP_LAST_CAP))).map
        (fun cap => "CAP_" ++ ToUpper (capString cap)) := by
  rw [init_eq]
  simp [GetAllCapabilities, CapabilityMapping.String, Function.comp_def]

/-- The sentinel `ALL` is not a name of the catalog of `init`. -/
theorem all_not_mem_init (ToUpper : String → String) (capList : List Cap)
    (capString : Cap → String) (CAP_LAST_CAP : Cap) :
    "ALL" ∉ GetAllCapabilities (init ToUpper capList capString CAP_LAST_CAP) := by
  intro h
  obtain ⟨s, hs⟩ := init_names ToUpper capList capString CAP_LAST_CAP "ALL" h
  exact cap_append_ne_all _ hs.symm

/-- C12: the catalog built by `init`, and the names `GetAllCapabilities` returns from it,
are `CAP_` + the upper-cased short name of the identifiers of the enumeration whose value
does not exceed the boundary, in enumeration order; the boundary is `CAP_BLOCK_SUSPEND`
when the reported ceiling is 63 and the reported ceiling otherwise; an identifier is in
the catalog exactly when it is enumerated and at or below the boundary. -/
theorem C12_catalog_of_init (ToUpper : String → String) (capList : List Cap)
    (capString : Cap → String) (CAP_LAST_CAP : Cap) :
    GetAllCapabilities (init ToUpper capList capString CAP_LAST_CAP) =
      (capList.filter (fun cap => decide (cap ≤ boundary CAP_LAST_CAP))).map
        (fun cap => "CAP_" ++ ToUpper (capString cap)) ∧
    (init ToUpper capList capString CAP_LAST_CAP).map CapabilityMapping.Value =
      capList.filter (fun cap => decide (cap ≤ boundary CAP_LAST_CAP)) ∧
    (∀ cap, cap ∈ (init ToUpper capList capString CAP_LAST_CAP).map CapabilityMapping.Value ↔
      cap ∈ capList ∧ cap ≤ boundary CAP_LAST_CAP) ∧
    boundary 63 = CAP_BLOCK_SUSPEND ∧
    (CAP_LAST_CAP ≠ 63 → boundary CAP_LAST_CAP = CAP_LAST_CAP) := by
  have hv : (init ToUpper capList capString CAP_LAST_CAP).map CapabilityMapping.Value =
      capList.filter (fun cap => decide (cap ≤ boundary CAP_LAST_CAP)) := by
    rw [init_eq]
    simp [Function.comp_def]
  refine ⟨getAll_init _ _ _ _, hv, ?_, rfl, ?_⟩
  · intro cap
    rw [hv]
    simp [List.mem_filter]
  · intro h
    simp [boundary, h]

/-- Witness of C12: with the ceiling 63 the sample enumeration is cut after
`CAP_BLOCK_SUSPEND` (36), with the ceiling 37 after `CAP_AUDIT_READ`. -/
theorem C12_catalog_of_init_witness :
    (GetAllCapabilities (init asciiUpper sampleList sampleString 63)).length = 37 ∧
    (GetAllCapabilities (init asciiUpper sampleList sampleString 63)).getLast? =
      some "CAP_BLOCK_SUSPEND" ∧
    (GetAllCapabilities (init asciiUpper sampleList sampleString 37)).getLast? =
      some "CAP_AUDIT_READ" ∧
    boundary 37 = 37 ∧
    ((37 : Cap) ∈ (init asciiUpper sampleList sampleString 63).map CapabilityMapping.Value ↔
      (37 : Cap) ∈ sampleList ∧ (37 : Cap) ≤ boundary 63) :=
  ⟨by decide, by decide, by decide,
   (C12_catalog_of_init asciiUpper sampleList sampleString 37).2.2.2.2 (by decide),
   (C12_catalog_of_init asciiUpper sampleList sampleString 63).2.2.1 37⟩

/-- C13: every name of the catalog built by `init` starts with `CAP_` and is unchanged by
upper-casing, and the sentinel `ALL` is not one of them, for every enumeration and
ceiling.  Upper-casing is taken idempotent and leaving a leading `CAP_` in place. -/
theorem C13_catalog_names_canonical (ToUpper : String → String)
    (hidem : ∀ s, ToUpper (ToUpper s) = ToUpper s)
    (hcap : ∀ s, ToUpper ("CAP_" ++ s) = "CAP_" ++ ToUpper s)
    (capList : List Cap) (capString : Cap → String) (CAP_LAST_CAP : Cap) :
    (∀ n ∈ GetAllCapabilities (init ToUpper capList capString CAP_LAST_CAP),
      HasPrefix n "CAP_" = true ∧ ToUpper n = n) ∧
    "ALL" ∉ GetAllCapabilities (init ToUpper capList capString CAP_LAST_CAP) := by
  refine ⟨?_, all_not_mem_init _ _ _ _⟩
  intro n hn
  obtain ⟨s, rfl⟩ := init_names ToUpper capList capString CAP_LAST_CAP n hn
  exact ⟨hasPrefix_cap_append _, by rw [hcap, hidem]⟩

/-- Witness of C13 on the sample catalog. -/
theorem C13_catalog_names_canonical_witness :
    (∀ n ∈ GetAllCapabilities sampleCatalog,
      HasPrefix n "CAP_" = true ∧ asciiUpper n = n) ∧
    "ALL" ∉ GetAllCapabilities sampleCatalog :=
  C13_catalog_names_canonical asciiUpper asciiUpper_idem asciiUpper_cap sampleList
    sampleString 37

/-- C14: when the identifiers of the enumeration have pairwise distinct upper-cased short
names, no name occurs twice in the catalog built by `init`. -/
theorem C14_catalog_names_unique (ToUpper : String → String) (capList : List Cap)
    (capString : Cap → String) (CAP_LAST_CAP : Cap)
    (hdistinct : (capList.map (fun cap => ToUpper (capString cap))).Nodup) :
    (GetAllCapabilities (init ToUpper capList capString CAP_LAST_CAP)).Nodup := by
  rw [getAll_init]
  have hsub : ((capList.filter (fun cap => decide (cap ≤ boundary CAP_LAST_CAP))).map
      (fun cap => ToUpper (capString cap))).Nodup :=
    hdistinct.sublist ((List.filter_sublist capList).map _)
  have hinj : Function.Injective (fun s : String => "CAP_" ++ s) :=
    fun a b h => string_append_cancel "CAP_" a b h
  have := hsub.map hinj
  simpa [List.map_map, Function.comp_def] using this

/-- Witness of C14 on the first capabilities of the sample enumeration. -/
theorem C14_catalog_names_unique_witness :
    (GetAllCapabilities (init asciiUpper [0, 1, 2, 7, 12, 21] sampleString 37)).Nodup :=
  C14_catalog_names_unique asciiUpper [0, 1, 2, 7, 12, 21] sampleString 37 (by decide)

/-! ## What the result of `TweakCapabilities` holds -/

/-- A successful normalisation returns the normal forms of its input. -/
theorem normalize_ok_eq_map (ToUpper : String → String) (capabilityList : Capabilities)
    (x y : List String) (h : NormalizeLegacyCapabilities ToUpper capabilityList x = .ok y) :
    y = x.map (normalForm ToUpper) :=
  ((normalize_ok_iff ToUpper capabilityList x y).1 h).2

/-- Every element of a normalised list is `ALL` or a catalog name. -/
theorem normalize_ok_mem (ToUpper : String → String) (capabilityList : Capabilities)
    (x y : List String) (h : NormalizeLegacyCapabilities ToUpper capabilityList x = .ok y)
    (n : String) (hn : n ∈ y) : n = "ALL" ∨ n ∈ GetAllCapabilities capabilityList := by
  obtain ⟨hall, rfl⟩ := (normalize_ok_iff ToUpper capabilityList x y).1 h
  obtain ⟨t, ht, rfl⟩ := List.mem_map.1 hn
  exact hall t ht

/-- Every element of a normalised list is `ALL` or starts with `CAP_`. -/
theorem normalize_ok_hasPrefix (ToUpper : String → String) (capabilityList : Capabilities)
    (x y : List String) (h : NormalizeLegacyCapabilities ToUpper capabilityList x = .ok y)
    (n : String) (hn : n ∈ y) (hne : n ≠ "ALL") : HasPrefix n "CAP_" = true := by
  obtain ⟨-, rfl⟩ := (normalize_ok_iff ToUpper capabilityList x y).1 h
  obtain ⟨t, -, rfl⟩ := List.mem_map.1 hn
  exact normalForm_hasPrefix ToUpper t (fun ht => hne ((normalForm_eq_all_iff ToUpper t).2 ht))

/-- A successful unprivileged `TweakCapabilities` went through one of its four exits. -/
theorem tweak_ok_cases (ToUpper : String → String) (capabilityList : Capabilities)
    (basics adds drops r : List String)
    (h : TweakCapabilities ToUpper capabilityList basics adds drops false = .ok r) :
    ∃ A D, NormalizeLegacyCapabilities ToUpper capabilityList adds = .ok A ∧
      NormalizeLegacyCapabilities ToUpper capabilityList drops = .ok D ∧
      ((adds = [] ∧ drops = [] ∧ r = basics) ∨
        ("ALL" ∈ A ∧
          r = (GetAllCapabilities capabilityList).filter (fun c => decide (c ∉ D))) ∨
        ("ALL" ∉ A ∧ "ALL" ∈ D ∧ r = A) ∨
        ("ALL" ∉ A ∧ "ALL" ∉ D ∧ r = basics.filter (fun c => decide (c ∉ D)) ++ A)) := by
  cases hD : NormalizeLegacyCapabilities ToUpper capabilityList drops with
  | error e =>
    rw [tweak_of_drops_error ToUpper capabilityList basics adds drops e hD] at h
    cases h
  | ok D =>
    cases hA : NormalizeLegacyCapabilities ToUpper capabilityList adds with
    | error e =>
      rw [tweak_of_adds_error ToUpper capabilityList basics adds drops D e hD hA] at h
      cases h
    | ok A =>
      rw [tweak_of_normalized ToUpper capabilityList basics adds drops A D hD hA] at h
      refine ⟨A, D, rfl, rfl, ?_⟩
      split_ifs at h with h1 h2 h3
      · cases h
        exact Or.inl ⟨h1.1, h1.2, rfl⟩
      · cases h
        exact Or.inr (Or.inl ⟨h2, rfl⟩)
      · cases h
        exact Or.inr (Or.inr (Or.inl ⟨h2, h3, rfl⟩))
      · cases h
        exact Or.inr (Or.inr (Or.inr ⟨h2, h3, rfl⟩))

/-- C15: `TweakCapabilities` does not deduplicate.  On the sample catalog, baseline
`CAP_CHOWN` with add `CAP_CHOWN` and no drop gives `CAP_CHOWN` twice; and in general, with
no `ALL` in either normalised list, a name that is in the baseline, not in the normalised
drops and in the normalised adds occurs at least twice in the result. -/
theorem C15_no_deduplication :
    (∃ basics adds drops A D r,
      NormalizeLegacyCapabilities asciiUpper sampleCatalog adds = .ok A ∧
      NormalizeLegacyCapabilities asciiUpper sampleCatalog drops = .ok D ∧
      "ALL" ∉ A ∧ "ALL" ∉ D ∧
      TweakCapabilities asciiUpper sampleCatalog basics adds drops false = .ok r ∧
      r.count "CAP_CHOWN" = 2) ∧
    (∀ (ToUpper : String → String) (capabilityList : Capabilities)
      (basics adds drops A D : List String) (n : String),
      NormalizeLegacyCapabilities ToUpper capabilityList drops = .ok D →
      NormalizeLegacyCapabilities ToUpper capabilityList adds = .ok A →
      "ALL" ∉ A → "ALL" ∉ D → n ∈ basics → n ∉ D → n ∈ A →
      ∃ r, TweakCapabilities ToUpper capabilityList basics adds drops false = .ok r ∧
        2 ≤ r.count n) := by
  constructor
  · exact ⟨["CAP_CHOWN"], ["chown"], [], ["CAP_CHOWN"], [], ["CAP_CHOWN", "CAP_CHOWN"],
      by decide, by decide, by decide, by decide, by decide, by decide⟩
  · intro ToUpper capabilityList basics adds drops A D n hD hA hAall hDall hb hnD hnA
    have hadds : adds ≠ [] :=
      normalize_ok_ne_nil ToUpper capabilityList adds A hA (List.ne_nil_of_mem hnA)
    refine ⟨basics.filter (fun c => decide (c ∉ D)) ++ A, ?_, ?_⟩
    · rw [tweak_of_normalized ToUpper capabilityList basics adds drops A D hD hA,
        if_neg (fun h => hadds h.1), if_neg hAall, if_neg hDall]
    · rw [List.count_append]
      have h1 : 0 < (basics.filter (fun c => decide (c ∉ D))).count n :=
        List.count_pos_iff.2 (List.mem_filter.2 ⟨hb, by simpa using hnD⟩)
      have h2 : 0 < A.count n := List.count_pos_iff.2 hnA
      omega

/-- Witness of C15: the general statement at baseline `CAP_KILL`, `CAP_CHOWN`, add `kill`,
drop `chown`. -/
theorem C15_no_deduplication_witness :
    ∃ r, TweakCapabilities asciiUpper sampleCatalog ["CAP_KILL", "CAP_CHOWN"] ["kill"]
        ["chown"] false = .ok r ∧ 2 ≤ r.count "CAP_KILL" :=
  C15_no_deduplication.2 asciiUpper sampleCatalog ["CAP_KILL", "CAP_CHOWN"] ["kill"] ["chown"]
    ["CAP_KILL"] ["CAP_CHOWN"] "CAP_KILL" (by decide) (by decide) (by decide) (by decide)
    (by decide) (by decide) (by decide)

/-- C16: every element of a successful result of `TweakCapabilities` is a name of
`GetAllCapabilities()` or an element of the baseline; so a baseline of catalog names gives
a result of catalog names, and, on a catalog built by `init`, `ALL` is in the result only
when the caller put it in the baseline. -/
theorem C16_result_from_catalog_or_baseline (ToUpper : String → String)
    (capabilityList : Capabilities) (basics adds drops : List String) (privileged : Bool)
    (r : List String)
    (h : TweakCapabilities ToUpper capabilityList basics adds drops privileged = .ok r) :
    (∀ n ∈ r, n ∈ GetAllCapabilities capabilityList ∨ n ∈ basics) ∧
    ((∀ n ∈ basics, n ∈ GetAllCapabilities capabilityList) →
      ∀ n ∈ r, n ∈ GetAllCapabilities capabilityList) ∧
    (∀ (capList : List Cap) (capString : Cap → String) (CAP_LAST_CAP : Cap),
      capabilityList = init ToUpper capList capString CAP_LAST_CAP →
      "ALL" ∈ r → "ALL" ∈ basics) := by
  have key : ∀ n ∈ r, n ∈ GetAllCapabilities capabilityList ∨ n ∈ basics := by
    cases privileged with
    | true =>
      simp only [TweakCapabilities, if_true, Except.ok.injEq] at h
      subst h
      exact fun n hn => Or.inl hn
    | false =>
      obtain ⟨A, D, hA, hD, hr⟩ := tweak_ok_cases ToUpper capabilityList basics adds drops r h
      have hAmem : "ALL" ∉ A → ∀ n ∈ A, n ∈ GetAllCapabilities capabilityList := by
        intro hAall n hn
        rcases normalize_ok_mem ToUpper capabilityList adds A hA n hn with rfl | hc
        · exact absurd hn hAall
        · exact hc
      rcases hr with ⟨-, -, rfl⟩ | ⟨-, rfl⟩ | ⟨hAall, -, rfl⟩ | ⟨hAall, -, rfl⟩
      · exact fun n hn => Or.inr hn
      · exact fun n hn => Or.inl (List.mem_filter.1 hn).1
      · exact fun n hn => Or.inl (hAmem hAall n hn)
      · intro n hn
        rcases List.mem_append.1 hn with hn | hn
        · exact Or.inr (List.mem_filter.1 hn).1
        · exact Or.inl (hAmem hAall n hn)
  refine ⟨key, ?_, ?_⟩
  · intro hb n hn
    rcases key n hn with hc | hc
    · exact hc
    · exact hb n hc
  · intro capList capString CAP_LAST_CAP hcl hall
    rcases key "ALL" hall with hc | hc
    · rw [hcl] at hc
      exact absurd hc (all_not_mem_init _ _ _ _)
    · exact hc

/-- Witness of C16: a baseline of catalog names, one add and one drop. -/
theorem C16_result_from_catalog_or_baseline_witness :
    TweakCapabilities asciiUpper sampleCatalog ["CAP_CHOWN", "CAP_KILL"] ["net_admin"]
      ["kill"] false = .ok ["CAP_CHOWN", "CAP_NET_ADMIN"] ∧
    ∀ n ∈ ["CAP_CHOWN", "CAP_NET_ADMIN"],
      n ∈ GetAllCapabilities sampleCatalog ∨ n ∈ ["CAP_CHOWN", "CAP_KILL"] :=
  ⟨by decide,
   (C16_result_from_catalog_or_baseline asciiUpper sampleCatalog ["CAP_CHOWN", "CAP_KILL"]
      ["net_admin"] ["kill"] false ["CAP_CHOWN", "CAP_NET_ADMIN"] (by decide)).1⟩

/-! ## Adds against drops, and the baseline -/

/-- With an idempotent upper-casing that leaves `CAP_` in place, a normal form is unchanged
by upper-casing. -/
theorem upper_normalForm (ToUpper : String → String)
    (hidem : ∀ s, ToUpper (ToUpper s) = ToUpper s)
    (hcap : ∀ s, ToUpper ("CAP_" ++ s) = "CAP_" ++ ToUpper s)
    (t : String) : ToUpper (normalForm ToUpper t) = normalForm ToUpper t := by
  by_cases h : ToUpper t = "ALL"
  · rw [(normalForm_eq_all_iff ToUpper t).2 h]
    have := hidem t
    rwa [h] at this
  · unfold normalForm
    rw [if_neg h]
    by_cases hp : HasPrefix (ToUpper t) "CAP_" = true
    · rw [if_pos hp, hidem]
    · rw [if_neg hp, hcap, hidem]

/-- Membership in the normalised drops, token by token. -/
theorem not_mem_normalized_iff (ToUpper : String → String) (capabilityList : Capabilities)
    (drops D : List String)
    (hD : NormalizeLegacyCapabilities ToUpper capabilityList drops = .ok D) (b : String) :
    b ∉ D ↔ ∀ t ∈ drops, b ≠ normalForm ToUpper t := by
  rw [normalize_ok_eq_map ToUpper capabilityList drops D hD]
  simp only [List.mem_map, not_exists, not_and]
  constructor
  · intro h t ht hb
    exact h t ht hb.symm
  · intro h t ht hb
    exact h t ht hb.symm

/-- C17: with no `ALL` in either normalised list, every name of the normalised adds is in
the result of `TweakCapabilities`, also a name that is in the normalised drops; with `ALL`
in the normalised adds, a name of the normalised drops is not in the result, also when the
adds list it. -/
theorem C17_explicit_add_wins (ToUpper : String → String) (capabilityList : Capabilities)
    (basics adds drops A D : List String)
    (hD : NormalizeLegacyCapabilities ToUpper capabilityList drops = .ok D)
    (hA : NormalizeLegacyCapabilities ToUpper capabilityList adds = .ok A) :
    ("ALL" ∉ A → "ALL" ∉ D →
      ∃ r, TweakCapabilities ToUpper capabilityList basics adds drops false = .ok r ∧
        ∀ n ∈ A, n ∈ r) ∧
    ("ALL" ∈ A →
      ∃ r, TweakCapabilities ToUpper capabilityList basics adds drops false = .ok r ∧
        ∀ n ∈ A, n ∈ D → n ∉ r) := by
  rw [tweak_of_normalized ToUpper capabilityList basics adds drops A D hD hA]
  constructor
  · intro hAall hDall
    by_cases hne : adds = [] ∧ drops = []
    · refine ⟨basics, by rw [if_pos hne], ?_⟩
      obtain ⟨rfl, -⟩ := hne
      rw [normalize_nil] at hA
      cases hA
      simp
    · refine ⟨basics.filter (fun c => decide (c ∉ D)) ++ A,
        by rw [if_neg hne, if_neg hAall, if_neg hDall], ?_⟩
      exact fun n hn => List.mem_append_right _ hn
  · intro hAall
    have hadds : adds ≠ [] :=
      normalize_ok_ne_nil ToUpper capabilityList adds A hA (List.ne_nil_of_mem hAall)
    refine ⟨(GetAllCapabilities capabilityList).filter (fun c => decide (c ∉ D)),
      by rw [if_neg (fun h => hadds h.1), if_pos hAall], ?_⟩
    intro n _ hnD hn
    have := (List.mem_filter.1 hn).2
    simp only [decide_eq_true_eq] at this
    exact this hnD

/-- Witness of C17: `chown` both added and dropped stays in the result; with `ALL` among
the adds it does not. -/
theorem C17_explicit_add_wins_witness :
    TweakCapabilities asciiUpper sampleCatalog ["CAP_CHOWN", "CAP_KILL"] ["chown"] ["chown"]
      false = .ok ["CAP_KILL", "CAP_CHOWN"] ∧
    (∃ r, TweakCapabilities asciiUpper sampleCatalog ["CAP_CHOWN", "CAP_KILL"] ["chown"]
        ["chown"] false = .ok r ∧ ∀ n ∈ ["CAP_CHOWN"], n ∈ r) ∧
    (∃ r, TweakCapabilities asciiUpper sampleCatalog ["CAP_CHOWN", "CAP_KILL"]
        ["ALL", "chown"] ["chown"] false = .ok r ∧
        ∀ n ∈ ["ALL", "CAP_CHOWN"], n ∈ ["CAP_CHOWN"] → n ∉ r) :=
  ⟨by decide,
   (C17_explicit_add_wins asciiUpper sampleCatalog ["CAP_CHOWN", "CAP_KILL"] ["chown"]
      ["chown"] ["CAP_CHOWN"] ["CAP_CHOWN"] (by decide) (by decide)).1 (by decide) (by decide),
   (C17_explicit_add_wins asciiUpper sampleCatalog ["CAP_CHOWN", "CAP_KILL"] ["ALL", "chown"]
      ["chown"] ["ALL", "CAP_CHOWN"] ["CAP_CHOWN"] (by decide) (by decide)).2 (by decide)⟩

/-- C18: `TweakCapabilities` does not normalise the baseline.  With no `ALL` in either
normalised list the result is the baseline elements that are string-equal to the normal
form of no drops token, followed by the normalised adds; so a baseline entry that does not
start with `CAP_`, or (for an idempotent upper-casing that leaves `CAP_` in place) that
upper-casing changes, stays in the result whatever the drops name. -/
theorem C18_baseline_not_normalised (ToUpper : String → String)
    (capabilityList : Capabilities) (basics adds drops A D : List String)
    (hD : NormalizeLegacyCapabilities ToUpper capabilityList drops = .ok D)
    (hA : NormalizeLegacyCapabilities ToUpper capabilityList adds = .ok A)
    (hAall : "ALL" ∉ A) (hDall : "ALL" ∉ D) :
    TweakCapabilities ToUpper capabilityList basics adds drops false =
      .ok (basics.filter (fun b => decide (∀ t ∈ drops, b ≠ normalForm ToUpper t)) ++ A) ∧
    (∀ b ∈ basics, HasPrefix b "CAP_" = false →
      b ∈ basics.filter (fun b => decide (∀ t ∈ drops, b ≠ normalForm ToUpper t))) ∧
    ((∀ s, ToUpper (ToUpper s) = ToUpper s) →
      (∀ s, ToUpper ("CAP_" ++ s) = "CAP_" ++ ToUpper s) →
      ∀ b ∈ basics, ToUpper b ≠ b →
        b ∈ basics.filter (fun b => decide (∀ t ∈ drops, b ≠ normalForm ToUpper t))) := by
  have hfilter : basics.filter (fun b => decide (∀ t ∈ drops, b ≠ normalForm ToUpper t)) =
      basics.filter (fun c => decide (c ∉ D)) := by
    apply List.filter_congr
    intro b _
    simp only [decide_eq_decide]
    exact (not_mem_normalized_iff ToUpper capabilityList drops D hD b).symm
  refine ⟨?_, ?_, ?_⟩
  · rw [hfilter, tweak_of_normalized ToUpper capabilityList basics adds drops A D hD hA]
    by_cases hne : adds = [] ∧ drops = []
    · rw [if_pos hne]
      obtain ⟨rfl, rfl⟩ := hne
      rw [normalize_nil] at hA hD
      cases hA
      cases hD
      simp
    · rw [if_neg hne, if_neg hAall, if_neg hDall]
  · intro b hb hpre
    rw [hfilter]
    refine List.mem_filter.2 ⟨hb, ?_⟩
    simp only [decide_eq_true_eq]
    intro hbD
    have hne : b ≠ "ALL" := fun h => hDall (h ▸ hbD)
    have := normalize_ok_hasPrefix ToUpper capabilityList drops D hD b hbD hne
    rw [hpre] at this
    cases this
  · intro hidem hcap b hb hup
    refine List.mem_filter.2 ⟨hb, ?_⟩
    simp only [decide_eq_true_eq]
    intro t _ hbt
    apply hup
    rw [hbt]
    exact upper_normalForm ToUpper hidem hcap t

/-- Witness of C18: `chown` and `cap_chown` in the baseline survive a drop of `chown`,
`CAP_CHOWN` does not. -/
theorem C18_baseline_not_normalised_witness :
    TweakCapabilities asciiUpper sampleCatalog ["chown", "cap_chown", "CAP_CHOWN", "CAP_KILL"]
      [] ["chown"] false = .ok ["chown", "cap_chown", "CAP_KILL"] :=
  ((C18_baseline_not_normalised asciiUpper sampleCatalog
      ["chown", "cap_chown", "CAP_CHOWN", "CAP_KILL"] [] ["chown"] [] ["CAP_CHOWN"]
      (by decide) (by decide) (by decide) (by decide)).1).trans (by decide)

/-! ## `ALL` on both sides, and the overridden baseline -/

/-- A list with a token that upper-cases to `ALL` has `ALL` among its normal forms. -/
theorem all_mem_map_normalForm (ToUpper : String → String) (x : List String)
    (h : ∃ t ∈ x, ToUpper t = "ALL") : "ALL" ∈ x.map (normalForm ToUpper) := by
  obtain ⟨t, ht, hu⟩ := h
  exact List.mem_map.2 ⟨t, ht, (normalForm_eq_all_iff ToUpper t).2 hu⟩

/-- Filtering a list that does not hold `ALL`: the `ALL` of the drops removes nothing. -/
theorem filter_drops_without_all (names D : List String) (hall : "ALL" ∉ names) :
    names.filter (fun c => decide (c ∉ D)) =
      names.filter (fun c => decide (c ∉ D.filter (fun d => decide (d ≠ "ALL")))) := by
  apply List.filter_congr
  intro c hc
  have hne : c ≠ "ALL" := fun h => hall (h ▸ hc)
  simp [List.mem_filter, hne]

/-- C19: on a catalog built by `init`, not privileged, with a token that upper-cases to
`ALL` in adds and one in drops and both lists normalising, `TweakCapabilities` returns the
catalog without the normalised drops other than `ALL`: the `ALL` of the drops removes
nothing.  With a single such token on each side the result is the whole catalog, in
particular for adds `[ALL]` and drops `[ALL]` when upper-casing leaves `ALL` as it is. -/
theorem C19_all_on_both_sides (ToUpper : String → String) (capList : List Cap)
    (capString : Cap → String) (CAP_LAST_CAP : Cap) (basics adds drops A D : List String)
    (hD : NormalizeLegacyCapabilities ToUpper (init ToUpper capList capString CAP_LAST_CAP)
      drops = .ok D)
    (hA : NormalizeLegacyCapabilities ToUpper (init ToUpper capList capString CAP_LAST_CAP)
      adds = .ok A)
    (hadds : ∃ t ∈ adds, ToUpper t = "ALL") (hdrops : ∃ t ∈ drops, ToUpper t = "ALL") :
    TweakCapabilities ToUpper (init ToUpper capList capString CAP_LAST_CAP) basics adds drops
        false =
      .ok ((GetAllCapabilities (init ToUpper capList capString CAP_LAST_CAP)).filter
        (fun c => decide (c ∉ D.filter (fun d => decide (d ≠ "ALL"))))) ∧
    "ALL" ∈ A ∧ "ALL" ∈ D ∧
    (∀ a d, ToUpper a = "ALL" → ToUpper d = "ALL" →
      TweakCapabilities ToUpper (init ToUpper capList capString CAP_LAST_CAP) basics [a] [d]
          false =
        .ok (GetAllCapabilities (init ToUpper capList capString CAP_LAST_CAP))) ∧
    (ToUpper "ALL" = "ALL" →
      TweakCapabilities ToUpper (init ToUpper capList capString CAP_LAST_CAP) basics ["ALL"]
          ["ALL"] false =
        .ok (GetAllCapabilities (init ToUpper capList capString CAP_LAST_CAP))) := by
  have hnot := all_not_mem_init ToUpper capList capString CAP_LAST_CAP
  have hAall : "ALL" ∈ A := by
    rw [normalize_ok_eq_map ToUpper _ adds A hA]
    exact all_mem_map_normalForm ToUpper adds hadds
  have hDall : "ALL" ∈ D := by
    rw [normalize_ok_eq_map ToUpper _ drops D hD]
    exact all_mem_map_normalForm ToUpper drops hdrops
  have hne : adds ≠ [] :=
    normalize_ok_ne_nil ToUpper _ adds A hA (List.ne_nil_of_mem hAall)
  have hsingle : ∀ a d, ToUpper a = "ALL" → ToUpper d = "ALL" →
      TweakCapabilities ToUpper (init ToUpper capList capString CAP_LAST_CAP) basics [a] [d]
          false =
        .ok (GetAllCapabilities (init ToUpper capList capString CAP_LAST_CAP)) := by
    intro a d ha hd
    have hna : normalForm ToUpper a = "ALL" := (normalForm_eq_all_iff ToUpper a).2 ha
    have hnd : normalForm ToUpper d = "ALL" := (normalForm_eq_all_iff ToUpper d).2 hd
    have hNa : NormalizeLegacyCapabilities ToUpper
        (init ToUpper capList capString CAP_LAST_CAP) [a] = .ok ["ALL"] := by
      rw [normalize_single, if_pos (Or.inl hna), hna]
    have hNd : NormalizeLegacyCapabilities ToUpper
        (init ToUpper capList capString CAP_LAST_CAP) [d] = .ok ["ALL"] := by
      rw [normalize_single, if_pos (Or.inl hnd), hnd]
    rw [tweak_of_normalized ToUpper _ basics [a] [d] ["ALL"] ["ALL"] hNd hNa,
      if_neg (by simp), if_pos (by simp)]
    congr 1
    apply List.filter_eq_self.2
    intro c hc
    have hcne : c ≠ "ALL" := fun h => hnot (h ▸ hc)
    simpa using hcne
  refine ⟨?_, hAall, hDall, hsingle, fun h => hsingle "ALL" "ALL" h h⟩
  rw [tweak_of_normalized ToUpper _ basics adds drops A D hD hA,
    if_neg (fun h => hne h.1), if_pos hAall, filter_drops_without_all _ D hnot]

/-- Witness of C19: `all` added, `ALL` and `sys_admin` dropped gives the catalog without
`CAP_SYS_ADMIN` only. -/
theorem C19_all_on_both_sides_witness :
    TweakCapabilities asciiUpper (init asciiUpper sampleList sampleString 37) ["CAP_KILL"]
        ["all"] ["ALL", "sys_admin"] false =
      .ok ((GetAllCapabilities (init asciiUpper sampleList sampleString 37)).filter
        (fun c => decide (c ∉ ["CAP_SYS_ADMIN"]))) ∧
    TweakCapabilities asciiUpper (init asciiUpper sampleList sampleString 37) ["CAP_KILL"]
        ["ALL"] ["ALL"] false =
      .ok (GetAllCapabilities (init asciiUpper sampleList sampleString 37)) :=
  ⟨(C19_all_on_both_sides asciiUpper sampleList sampleString 37 ["CAP_KILL"] ["all"]
      ["ALL", "sys_admin"] ["ALL"] ["ALL", "CAP_SYS_ADMIN"] (by decide) (by decide)
      ⟨"all", by decide, by decide⟩ ⟨"ALL", by decide, by decide⟩).1,
   (C19_all_on_both_sides asciiUpper sampleList sampleString 37 ["CAP_KILL"] ["all"]
      ["ALL", "sys_admin"] ["ALL"] ["ALL", "CAP_SYS_ADMIN"] (by decide) (by decide)
      ⟨"all", by decide, by decide⟩ ⟨"ALL", by decide, by decide⟩).2.2.2.2 (by decide)⟩

/-- C20: the baseline has no influence when it is overridden: if `privileged` is true, or
`ALL` is among the normal forms of adds or of drops, two baselines give the same outcome
of `TweakCapabilities`, the same list or the same error. -/
theorem C20_baseline_overridden (ToUpper : String → String) (capabilityList : Capabilities)
    (b1 b2 adds drops : List String) (privileged : Bool)
    (h : privileged = true ∨ "ALL" ∈ adds.map (normalForm ToUpper) ∨
      "ALL" ∈ drops.map (normalForm ToUpper)) :
    TweakCapabilities ToUpper capabilityList b1 adds drops privileged =
      TweakCapabilities ToUpper capabilityList b2 adds drops privileged := by
  cases privileged with
  | true => simp [TweakCapabilities]
  | false =>
    cases hD : NormalizeLegacyCapabilities ToUpper capabilityList drops with
    | error e =>
      rw [tweak_of_drops_error ToUpper capabilityList b1 adds drops e hD,
        tweak_of_drops_error ToUpper capabilityList b2 adds drops e hD]
    | ok D =>
      cases hA : NormalizeLegacyCapabilities ToUpper capabilityList adds with
      | error e =>
        rw [tweak_of_adds_error ToUpper capabilityList b1 adds drops D e hD hA,
          tweak_of_adds_error ToUpper capabilityList b2 adds drops D e hD hA]
      | ok A =>
        rw [tweak_of_normalized ToUpper capabilityList b1 adds drops A D hD hA,
          tweak_of_normalized ToUpper capabilityList b2 adds drops A D hD hA]
        rw [← normalize_ok_eq_map ToUpper capabilityList adds A hA,
          ← normalize_ok_eq_map ToUpper capabilityList drops D hD] at h
        have hall : "ALL" ∈ A ∨ "ALL" ∈ D := by
          rcases h with h | h
          · cases h
          · exact h
        have hne : ¬ (adds = [] ∧ drops = []) := by
          rintro ⟨rfl, rfl⟩
          rw [normalize_nil] at hA hD
          cases hA
          cases hD
          simp at hall
        rw [if_neg hne, if_neg hne]
        by_cases hAall : "ALL" ∈ A
        · rw [if_pos hAall, if_pos hAall]
        · have hDall : "ALL" ∈ D := hall.resolve_left hAall
          rw [if_neg hAall, if_neg hAall, if_pos hDall, if_pos hDall]

/-- Witness of C20: `all` among the drops, two different baselines, the same result. -/
theorem C20_baseline_overridden_witness :
    TweakCapabilities asciiUpper sampleCatalog ["CAP_KILL"] ["chown"] ["all"] false =
      TweakCapabilities asciiUpper sampleCatalog ["CAP_SETUID", "bogus"] ["chown"] ["all"]
        false ∧
    TweakCapabilities asciiUpper sampleCatalog ["CAP_KILL"] ["chown"] ["all"] false =
      .ok ["CAP_CHOWN"] :=
  ⟨C20_baseline_overridden asciiUpper sampleCatalog ["CAP_KILL"] ["CAP_SETUID", "bogus"]
    ["chown"] ["all"] false (by decide), by decide⟩

end caps
